import Mathlib

/-!
Verification development for the `tinygoize` tool (tools/tinygoize):
a concurrent build-classification orchestrator (`main.go`) and an
idempotent `//go:build` annotation rewriter (`build.go`).

The embedding is shallow.  Comment texts are `List Char` (Go strings of
the relevant comments are ASCII).  A parsed Go source file is modelled at
the level the tool manipulates it: the list of comment groups produced by
`go/parser` together with the remaining file body; `go/printer` output is
modelled by `printFile`, and the parse/print round trip is taken to be
faithful, so the on-disk content of a file is identified with its
structure.  All machine work the tool does on that structure (the loop
over `f.Comments`, the regexp rewrites, the byte comparison, the
insertion of a fresh annotation group) is translated from the source.
-/

set_option maxHeartbeats 1000000

namespace Tinygoize

/-- Characters matched by `\s` in Go's RE2 regexp engine. -/
def isSp (c : Char) : Bool :=
  c == ' ' || c == '\t' || c == '\n' || c == '\r' || c == '\x0c'

/-- Shorthand for string literals as character lists. -/
def lit (s : String) : List Char := s.toList

/-- `strings.Contains`: does `pat` occur as a contiguous substring? -/
def listContains (pat : List Char) : List Char → Bool
  | [] => pat.isEmpty
  | c :: rest => pat.isPrefixOf (c :: rest) || listContains pat rest

/-- The `goBuild` constant of build.go: the annotation prefix (note the
trailing space). -/
def goBuild : List Char := lit "//go:build "

/-- The `constraint` constant of build.go: the managed clause. -/
def constraint : List Char := lit "!tinygo || tinygo.enable"

/-- Greedy `\s*`. -/
def dropSpaces (s : List Char) : List Char := s.dropWhile isSp

/-- Match a literal at the head of the input, returning the rest. -/
def dropLit (l s : List Char) : Option (List Char) :=
  if l.isPrefixOf s then some (s.drop l.length) else none

/-- Greedy `\s+`: at least one whitespace character, then all of them. -/
def spacesPlus (s : List Char) : Option (List Char) :=
  match s with
  | c :: rest => if isSp c then some (dropSpaces rest) else none
  | [] => none

/-- One attempted match of the body of the strip regexp
`\s*!tinygo\s+\|\|\s+tinygo.enable\s*\)?(\s+\&\&)?` (everything after the
optional opening parenthesis) at the head of `s`, returning the input
remaining after the match.  Go's regexp semantics are leftmost-first with
greedy quantifiers; every `\s*`/`\s+` here is followed by a
non-whitespace requirement or only by optional parts, so the maximal
munch below is exactly the Perl-priority match. -/
def matchCore (s : List Char) : Option (List Char) :=
  match dropLit (lit "!tinygo") (dropSpaces s) with
  | none => none
  | some s2 =>
  match spacesPlus s2 with
  | none => none
  | some s3 =>
  match dropLit (lit "||") s3 with
  | none => none
  | some s4 =>
  match spacesPlus s4 with
  | none => none
  | some s5 =>
  match dropLit (lit "tinygo") s5 with
  | none => none
  | some s6 =>
  match s6 with
  | [] => none
  | c :: s7 =>
  if c == '\n' then none
  else
  match dropLit (lit "enable") s7 with
  | none => none
  | some s8 =>
  let s9 := dropSpaces s8
  let s10 := match s9 with
             | r :: rest => if r == ')' then rest else r :: rest
             | [] => []
  let s11 := match spacesPlus s10 with
             | some r =>
               match dropLit (lit "&&") r with
               | some r2 => r2
               | none => s10
             | none => s10
  some s11

/-- One attempted match of the whole strip regexp
`\(?\s*!tinygo\s+\|\|\s+tinygo.enable\s*\)?(\s+\&\&)?` at the head of
`s`: the optional `\(?` is tried greedily first. -/
def matchAt (s : List Char) : Option (List Char) :=
  match s with
  | c :: rest =>
    if c == '(' then
      match matchCore rest with
      | some r => some r
      | none => matchCore s
    else matchCore s
  | [] => matchCore []

/-- `regexp.ReplaceAllString(s, "")`: scan left to right, delete each
leftmost non-overlapping match.  `fuel` bounds the recursion; every step
consumes at least one character, so `fuel = s.length` suffices. -/
def stripAux : Nat → List Char → List Char
  | 0, s => s
  | _ + 1, [] => []
  | fuel + 1, c :: rest =>
    match matchAt (c :: rest) with
    | some rem => stripAux fuel rem
    | none => c :: stripAux fuel rest

/-- Delete all matches of the strip regexp from `s`. -/
def stripAll (s : List Char) : List Char := stripAux s.length s

/-- `strings.HasPrefix(text, goBuild)`: is this comment an annotation
line? -/
def isGoBuildPrefix (c : List Char) : Bool := goBuild.isPrefixOf c

/-- `regexp ^\s*//go:build\s*$` applied by `MatchString`: the comment is
the bare directive with only surrounding whitespace. -/
def isEmptyGoBuild (s : List Char) : Bool :=
  match dropLit (lit "//go:build") (dropSpaces s) with
  | some r => r.all isSp
  | none => false

/-- The text of one `ast.Comment`. -/
abbrev Comment := List Char

/-- One `ast.CommentGroup`: its list of comments. -/
abbrev CommentGroup := List Comment

/-- A parsed source file as the rewriter sees it: the comment groups of
`f.Comments` in position order plus the remaining file content, which the
rewriter never touches. -/
structure GoFile where
  comments : List CommentGroup
  body : List Char
  deriving DecidableEq

/-- Outcome of the rewriter's pass over one comment group. -/
inductive GroupRes where
  | earlyRet : GroupRes
  | notFound : GroupRes
  | processed (cs : CommentGroup) : GroupRes
  deriving DecidableEq

/-- Index of the first comment of the group carrying the annotation
prefix (the comment the `for _, c := range cg.List` loop acts on). -/
def findGoBuildIdx : List Comment → Option Nat
  | [] => none
  | c :: rest =>
    if isGoBuildPrefix c then some 0
    else (findGoBuildIdx rest).map (· + 1)

/-- The conjoined annotation text of the `else` branch (build.go line
181): `goBuild + "(" + constraint + ") && (" + c.Text[len(goBuild):] + ")"`. -/
def conjoinText (c : Comment) : Comment :=
  goBuild ++ lit "(" ++ constraint ++ lit ") && (" ++ c.drop goBuild.length ++ lit ")"

/-- The body of the `for _, cg := range f.Comments` loop of
`fixupFileConstraints` for one group: find the first annotation comment;
return early when the constraint state already agrees with `builds`;
otherwise strip the clause (possibly dropping now-empty directive
comments from the whole group) or conjoin the clause onto the existing
expression.  The inner `break` means at most one comment per group is
rewritten. -/
def processGroup (builds : Bool) (cs : CommentGroup) : GroupRes :=
  match findGoBuildIdx cs with
  | none => GroupRes.notFound
  | some i =>
    let c := cs.getD i []
    let hasClause := listContains constraint c
    if (builds && !hasClause) || (!builds && hasClause) then GroupRes.earlyRet
    else if builds then
      let t := stripAll c
      let cs2 := cs.set i t
      if isEmptyGoBuild t then
        GroupRes.processed (cs2.filter (fun x => !(isEmptyGoBuild x)))
      else GroupRes.processed cs2
    else
      GroupRes.processed (cs.set i (conjoinText c))

/-- The whole loop over `f.Comments`: `none` models the early `return`
(no change reported, nothing written); otherwise the rewritten groups
together with the `goBuildPresent` flag.  The outer loop keeps running
after a group was processed, so later groups are processed too. -/
def processGroups (builds : Bool) : List CommentGroup → Option (List CommentGroup × Bool)
  | [] => some ([], false)
  | g :: rest =>
    match processGroup builds g with
    | GroupRes.earlyRet => none
    | GroupRes.notFound =>
      match processGroups builds rest with
      | none => none
      | some (gs, p) => some (g :: gs, p)
    | GroupRes.processed g2 =>
      match processGroups builds rest with
      | none => none
      | some (gs, _) => some (g2 :: gs, true)

/-- Insertion of a fresh annotation group (`!builds && !goBuildPresent`):
after the first comment group when one exists, otherwise as the file's
first comment. -/
def insertGoBuild : List CommentGroup → List CommentGroup
  | [] => [[goBuild ++ constraint]]
  | g :: rest => g :: [goBuild ++ constraint] :: rest

/-- The candidate rewritten file (`f` after the loop and the optional
insertion), or `none` when the function returned early. -/
def rewriteCandidate (f : GoFile) (builds : Bool) : Option GoFile :=
  match processGroups builds f.comments with
  | none => none
  | some (gs, present) =>
    some (GoFile.mk (if !builds && !present then insertGoBuild gs else gs) f.body)

/-- Join chunks with a separator. -/
def joinWith (sep : List Char) : List (List Char) → List Char
  | [] => []
  | [x] => x
  | x :: y :: rest => x ++ sep ++ joinWith sep (y :: rest)

/-- Render one comment group, one comment per line. -/
def printGroup (g : CommentGroup) : List Char := joinWith (lit "\n") g

/-- Render the whole file (the `printer.Config.Fprint` output): comment
groups in position order — a group whose comment list became empty
produces no output — then the rest of the file. -/
def printFile (f : GoFile) : List Char :=
  joinWith (lit "\n\n") ((f.comments.filter (fun g => !g.isEmpty)).map printGroup)
    ++ lit "\n\n" ++ f.body

/-- `fixupFileConstraints(file, builds, checkonly)`: returns the on-disk
state of the file after the call together with `mustDoWork`.  An early
return leaves the file as is and reports no work; otherwise the printed
candidate is compared byte-for-byte against the original and the file is
overwritten only when they differ and `checkonly` is unset. -/
def fixupFileConstraints (f : GoFile) (builds : Bool) (checkonly : Bool) : GoFile × Bool :=
  match rewriteCandidate f builds with
  | none => (f, false)
  | some f2 =>
    if printFile f2 = printFile f then (f, false)
    else if checkonly then (f, true) else (f2, true)

/-- The first annotation line the loop would act on: the first
prefix-bearing comment of the first group containing one. -/
def firstGoBuildLine : List CommentGroup → Option Comment
  | [] => none
  | g :: rest =>
    match findGoBuildIdx g with
    | some i => some (g.getD i [])
    | none => firstGoBuildLine rest

/-- After a strip pass, is the authoritative annotation line free of the
managed clause (or gone)?  This is the state from which a second
application is a no-op. -/
def clauseCleared (f : GoFile) : Bool :=
  match firstGoBuildLine f.comments with
  | none => true
  | some t => !(listContains constraint t)

/- ------------------------------------------------------------------
Orchestrator (main.go): worker results, classification, collection.
------------------------------------------------------------------ -/

/-- `BuildRes` of build.go, keeping what the orchestrator inspects:
whether `res.err` (the `*exec.ExitError`) is non-nil and whether the
directory was excluded. -/
structure BuildRes where
  err : Bool
  excluded : Bool
  deriving DecidableEq

/-- `WorkerResult` of main.go.  `err` is the hard error sent back by the
worker (non-nil exactly in the Fatal case). -/
structure WorkerResult where
  dir : String
  buildRes : BuildRes
  didWork : Bool
  err : Option String
  deriving DecidableEq

/-- `BuildStatus` of main.go. -/
structure BuildStatus where
  passing : List String
  failing : List String
  excluded : List String
  modified : List String
  deriving DecidableEq

/-- The classification step of the collection loop (main.go lines
124-133): exactly one of the three buckets receives the directory, and
`modified` additionally records it when `didWork` was set. -/
def classify (st : BuildStatus) (r : WorkerResult) : BuildStatus :=
  let st1 :=
    if r.buildRes.excluded then
      BuildStatus.mk st.passing st.failing (st.excluded ++ [r.dir]) st.modified
    else if r.buildRes.err then
      BuildStatus.mk st.passing (st.failing ++ [r.dir]) st.excluded st.modified
    else
      BuildStatus.mk (st.passing ++ [r.dir]) st.failing st.excluded st.modified
  if r.didWork then
    BuildStatus.mk st1.passing st1.failing st1.excluded (st1.modified ++ [r.dir])
  else st1

/-- The collection loop of `buildDirs` over the results in arrival
order: a result carrying a non-nil error breaks out of the loop — note
that the named return `err` of `buildDirs` is never assigned, so the
returned error is the Option value `none` on every path. -/
def collectResults : List WorkerResult → BuildStatus → BuildStatus × Option String
  | [], st => (st, none)
  | r :: rest, st =>
    if r.err.isSome then (st, none)
    else collectResults rest (classify st r)

/-- `buildDirs` viewed from its collection side: the worker results
arrive over the results channel in some order and are folded into the
empty `BuildStatus`. -/
def buildDirs (results : List WorkerResult) : BuildStatus × Option String :=
  collectResults results (BuildStatus.mk [] [] [] [])

/-- The sum of the occurrences of a directory across the three
classification buckets. -/
def countBuckets (st : BuildStatus) (d : String) : Nat :=
  st.passing.count d + st.failing.count d + st.excluded.count d

/-- The spec's `BuildOutcome` taxonomy. -/
inductive BuildOutcome where
  | success : BuildOutcome
  | failure : BuildOutcome
  | excluded : BuildOutcome
  | fatal : BuildOutcome
  deriving DecidableEq

/-- Classification of one `build` call's results (build.go lines 86-107):
a hard error means Fatal, otherwise the excluded flag, otherwise the
recorded `*exec.ExitError`. -/
def outcomeOf (br : BuildRes) (err : Option String) : BuildOutcome :=
  if err.isSome then BuildOutcome.fatal
  else if br.excluded then BuildOutcome.excluded
  else if br.err then BuildOutcome.failure
  else BuildOutcome.success

/-- The body of `worker` for one task (main.go lines 64-77): run the
build, and iff it neither failed fatally nor was excluded, run
`fixupPkgConstraints` with `builds = (br.err == nil)`.  The first
component records the `builds` flag passed to the rewriter (`none` when
the rewriter was not invoked); `fixupRes` stands for the value the
rewriter call would return. -/
def workerStep (dir : String) (br : BuildRes) (berr : Option String)
    (fixupRes : Bool × Option String) : Option Bool × WorkerResult :=
  if berr.isNone && !br.excluded then
    (some (!br.err), WorkerResult.mk dir br fixupRes.1 fixupRes.2)
  else
    (none, WorkerResult.mk dir br false berr)

/- ------------------------------------------------------------------
A small syntax for go:build expressions, to state boolean equivalence
of the conjoined annotation (claim C7).
------------------------------------------------------------------ -/

/-- Boolean build-constraint expressions over named tags, with explicit
textual parenthesization. -/
inductive BuildExpr where
  | tag (name : List Char) : BuildExpr
  | paren (e : BuildExpr) : BuildExpr
  | band (a b : BuildExpr) : BuildExpr
  | bor (a b : BuildExpr) : BuildExpr
  deriving DecidableEq

/-- Evaluation under an assignment of tags. -/
def evalExpr (env : List Char → Bool) : BuildExpr → Bool
  | BuildExpr.tag n => env n
  | BuildExpr.paren e => evalExpr env e
  | BuildExpr.band a b => evalExpr env a && evalExpr env b
  | BuildExpr.bor a b => evalExpr env a || evalExpr env b

/-- Rendering of expressions to annotation text. -/
def printExpr : BuildExpr → List Char
  | BuildExpr.tag n => n
  | BuildExpr.paren e => lit "(" ++ printExpr e ++ lit ")"
  | BuildExpr.band a b => printExpr a ++ lit " && " ++ printExpr b
  | BuildExpr.bor a b => printExpr a ++ lit " || " ++ printExpr b

/-- Is there any match of the strip regexp anywhere in `s`? -/
def hasMatch : List Char → Bool
  | [] => false
  | c :: rest => (matchAt (c :: rest)).isSome || hasMatch rest

/- ==================================================================
Theorems.
================================================================== -/

/-- A list is a `isPrefixOf` of itself followed by anything. -/
theorem isPrefixOf_append (l s : List Char) : l.isPrefixOf (l ++ s) = true := by
  rw [ List.isPrefixOf_iff_prefix]
  exact List.prefix_append l s

/-- `strings.Contains` holds whenever the pattern heads a suffix. -/
theorem listContains_of_suffix (pat s : List Char) (h : pat.isPrefixOf s = true) :
    ∀ a : List Char, listContains pat (a ++ s) = true := by
  intro a
  induction a with
  | nil =>
    cases s with
    | nil =>
      have : pat = [] := by
        rwa [ List.isPrefixOf_iff_prefix, List.prefix_nil] at h
      simp [listContains, this]
    | cons c rest => simp [listContains, h]
  | cons c a ih => simp [listContains, ih]

/-- `strings.Contains` holds for an interior occurrence. -/
theorem listContains_mid (pat a b : List Char) :
    listContains pat (a ++ (pat ++ b)) = true :=
  listContains_of_suffix pat (pat ++ b) (isPrefixOf_append pat b) a

/-- `getD` of an in-range index is a member. -/
theorem getD_mem_of_lt : ∀ (l : List Comment) (i : Nat), i < l.length → l.getD i [] ∈ l
  | c :: rest, 0, _ => by simp
  | c :: rest, i + 1, h => by
    have : i < rest.length := by simpa using h
    simpa using Or.inr (getD_mem_of_lt rest i this)

/-- Setting one position leaves the other positions as they were. -/
theorem getD_set_ne : ∀ (l : List Comment) (i j : Nat) (v : Comment), j ≠ i →
    (l.set i v).getD j [] = l.getD j []
  | [], _, _, _, _ => by simp
  | c :: rest, 0, 0, v, h => absurd rfl h
  | c :: rest, 0, j + 1, v, _ => by simp
  | c :: rest, i + 1, 0, v, _ => by simp
  | c :: rest, i + 1, j + 1, v, h => by
    have : j ≠ i := fun he => h (by omega)
    simpa using getD_set_ne rest i j v this

/-- Setting an in-range position stores the value there. -/
theorem getD_set_self : ∀ (l : List Comment) (i : Nat) (v : Comment), i < l.length →
    (l.set i v).getD i [] = v
  | [], i, v, h => by simp at h
  | c :: rest, 0, v, _ => by simp
  | c :: rest, i + 1, v, h => by
    have : i < rest.length := by simpa using h
    simpa using getD_set_self rest i v this

/-- A member distinct from the overwritten entry stays a member. -/
theorem mem_set_of_mem_ne : ∀ (l : List Comment) (i : Nat) (v c : Comment),
    c ∈ l → c ≠ l.getD i [] → c ∈ l.set i v
  | [], _, _, _, hc, _ => absurd hc (by simp)
  | x :: rest, 0, v, c, hc, hne => by
    rcases List.mem_cons.mp hc with h | h
    · exact absurd (by simpa using h) hne
    · simp [h]
  | x :: rest, i + 1, v, c, hc, hne => by
    rcases List.mem_cons.mp hc with h | h
    · simp [h]
    · have : c ≠ rest.getD i [] := by simpa using hne
      simpa using Or.inr (mem_set_of_mem_ne rest i v c h this)

/-- `findGoBuildIdx` finds an in-range index. -/
theorem findGoBuildIdx_lt_length : ∀ (cs : List Comment) (i : Nat),
    findGoBuildIdx cs = some i → i < cs.length
  | [], i, h => by simp [findGoBuildIdx] at h
  | c :: rest, i, h => by
    by_cases hp : isGoBuildPrefix c
    · simp [findGoBuildIdx, hp] at h
      simp only [List.length_cons]
      omega
    · simp [findGoBuildIdx, hp, Option.map_eq_some'] at h
      obtain ⟨j, hj, hji⟩ := h
      have := findGoBuildIdx_lt_length rest j hj
      simp only [List.length_cons]
      omega

/-- The found comment carries the annotation prefix. -/
theorem findGoBuildIdx_getD_goBuild : ∀ (cs : List Comment) (i : Nat),
    findGoBuildIdx cs = some i → isGoBuildPrefix (cs.getD i []) = true
  | [], i, h => by simp [findGoBuildIdx] at h
  | c :: rest, i, h => by
    by_cases hp : isGoBuildPrefix c
    · simp [findGoBuildIdx, hp] at h
      simp [← h, hp]
    · simp [findGoBuildIdx, hp, Option.map_eq_some'] at h
      obtain ⟨j, hj, hji⟩ := h
      have := findGoBuildIdx_getD_goBuild rest j hj
      simpa [← hji] using this

/-- No annotation line is found exactly when no comment has the prefix. -/
theorem findGoBuildIdx_eq_none_iff : ∀ cs : List Comment,
    findGoBuildIdx cs = none ↔ ∀ c ∈ cs, isGoBuildPrefix c = false
  | [] => by simp [findGoBuildIdx]
  | c :: rest => by
    by_cases hp : isGoBuildPrefix c
    · simp [findGoBuildIdx, hp]
    · simp [findGoBuildIdx, hp, findGoBuildIdx_eq_none_iff rest,
        Bool.not_eq_true]

/-- Replacing the found comment by another prefix-bearing comment keeps
the search result. -/
theorem findGoBuildIdx_set : ∀ (cs : List Comment) (i : Nat) (v : Comment),
    findGoBuildIdx cs = some i → isGoBuildPrefix v = true →
    findGoBuildIdx (cs.set i v) = some i
  | [], i, v, h, _ => by simp [findGoBuildIdx] at h
  | c :: rest, i, v, h, hv => by
    by_cases hp : isGoBuildPrefix c
    · simp [findGoBuildIdx, hp] at h
      simp [← h, findGoBuildIdx, hv]
    · simp [findGoBuildIdx, hp, Option.map_eq_some'] at h
      obtain ⟨j, hj, hji⟩ := h
      have := findGoBuildIdx_set rest j v hj hv
      cases i with
      | zero => omega
      | succ i2 =>
        have : j = i2 := by omega
        subst this
        simp [findGoBuildIdx, hp, findGoBuildIdx_set rest j v hj hv]

/-- Search in a group whose earlier comments all lack the prefix. -/
theorem findGoBuildIdx_append (pre : List Comment) (x : Comment) (post : List Comment)
    (hpre : ∀ c ∈ pre, isGoBuildPrefix c = false) (hx : isGoBuildPrefix x = true) :
    findGoBuildIdx (pre ++ x :: post) = some pre.length := by
  induction pre with
  | nil => simp [findGoBuildIdx, hx]
  | cons c pre ih =>
    have hc : isGoBuildPrefix c = false := hpre c (by simp)
    have hrest : ∀ y ∈ pre, isGoBuildPrefix y = false := fun y hy => hpre y (by simp [hy])
    simp [findGoBuildIdx, hc, ih hrest]

/-- `set` at the junction of an append. -/
theorem set_append_len : ∀ (pre : List Comment) (x v : Comment) (post : List Comment),
    (pre ++ x :: post).set pre.length v = pre ++ v :: post
  | [], x, v, post => by simp
  | c :: pre, x, v, post => by
    simp [set_append_len pre x v post]

/-- `getD` at the junction of an append. -/
theorem getD_append_len : ∀ (pre : List Comment) (x : Comment) (post : List Comment),
    (pre ++ x :: post).getD pre.length [] = x
  | [], x, post => by simp
  | c :: pre, x, post => by
    simpa using getD_append_len pre x post

/-- The conjoined text still carries the annotation prefix. -/
theorem conjoinText_hasGoBuild (c : Comment) : isGoBuildPrefix (conjoinText c) = true := by
  unfold conjoinText isGoBuildPrefix
  have : goBuild ++ lit "(" ++ constraint ++ lit ") && (" ++ c.drop goBuild.length ++ lit ")"
      = goBuild ++ (lit "(" ++ constraint ++ lit ") && (" ++ c.drop goBuild.length ++ lit ")") := by
    simp [List.append_assoc]
  rw [this]
  exact isPrefixOf_append goBuild _

/-- The conjoined text contains the managed clause. -/
theorem conjoinText_contains (c : Comment) :
    listContains constraint (conjoinText c) = true := by
  unfold conjoinText
  have : goBuild ++ lit "(" ++ constraint ++ lit ") && (" ++ c.drop goBuild.length ++ lit ")"
      = (goBuild ++ lit "(") ++ (constraint
          ++ (lit ") && (" ++ c.drop goBuild.length ++ lit ")")) := by
    simp [List.append_assoc]
  rw [this]
  exact listContains_mid constraint _ _

/-- A group with no annotation comment is reported `notFound`. -/
theorem processGroup_notFound_of_none (b : Bool) (cs : CommentGroup)
    (h : findGoBuildIdx cs = none) : processGroup b cs = GroupRes.notFound := by
  simp [processGroup, h]

/-- `notFound` only arises from a group with no annotation comment. -/
theorem processGroup_notFound_inv (b : Bool) (cs : CommentGroup)
    (h : processGroup b cs = GroupRes.notFound) : findGoBuildIdx cs = none := by
  cases hidx : findGoBuildIdx cs with
  | none => rfl
  | some i =>
    exfalso
    simp only [processGroup, hidx] at h
    by_cases hcl : listContains constraint (cs[i]?.getD []) = true
    · cases b
      · simp [hcl] at h
      · simp [hcl] at h
        split at h <;> simp at h
    · rw [Bool.not_eq_true] at hcl
      cases b <;> simp [hcl] at h

/-- With `builds` set and the clause absent, the loop returns early. -/
theorem processGroup_earlyRet_true (cs : CommentGroup) (i : Nat)
    (hidx : findGoBuildIdx cs = some i)
    (hc : listContains constraint (cs.getD i []) = false) :
    processGroup true cs = GroupRes.earlyRet := by
  rw [List.getD_eq_getElem?_getD] at hc
  simp [processGroup, hidx, hc]

/-- With `builds` unset and the clause present, the loop returns early. -/
theorem processGroup_earlyRet_false (cs : CommentGroup) (i : Nat)
    (hidx : findGoBuildIdx cs = some i)
    (hc : listContains constraint (cs.getD i []) = true) :
    processGroup false cs = GroupRes.earlyRet := by
  rw [List.getD_eq_getElem?_getD] at hc
  simp [processGroup, hidx, hc]

/-- With `builds` unset and the clause absent, the found line is
conjoined. -/
theorem processGroup_conjoin (cs : CommentGroup) (i : Nat)
    (hidx : findGoBuildIdx cs = some i)
    (hc : listContains constraint (cs.getD i []) = false) :
    processGroup false cs
      = GroupRes.processed (cs.set i (conjoinText (cs.getD i []))) := by
  rw [List.getD_eq_getElem?_getD] at hc
  simp [processGroup, hidx, hc, List.getD_eq_getElem?_getD]

/-- Inversion: the only way `processGroup false` rewrites a group is by
conjoining the first annotation line, which lacked the clause. -/
theorem processGroup_false_processed_inv (cs cs2 : CommentGroup)
    (h : processGroup false cs = GroupRes.processed cs2) :
    ∃ i, findGoBuildIdx cs = some i
      ∧ listContains constraint (cs.getD i []) = false
      ∧ cs2 = cs.set i (conjoinText (cs.getD i [])) := by
  cases hidx : findGoBuildIdx cs with
  | none => simp [processGroup, hidx] at h
  | some i =>
    simp only [processGroup, hidx] at h
    by_cases hcl : listContains constraint (cs[i]?.getD []) = true
    · simp [hcl] at h
    · rw [Bool.not_eq_true] at hcl
      simp [hcl] at h
      refine ⟨i, rfl, ?_, ?_⟩
      · rw [List.getD_eq_getElem?_getD]
        exact hcl
      · rw [List.getD_eq_getElem?_getD]
        exact h.symm

/-- Rescanning a group just conjoined returns early: the new line still
heads the group, still has the prefix, and now contains the clause. -/
theorem processGroup_conjoin_rescan (cs cs2 : CommentGroup)
    (h : processGroup false cs = GroupRes.processed cs2) :
    processGroup false cs2 = GroupRes.earlyRet := by
  obtain ⟨i, hidx, _, hcs2⟩ := processGroup_false_processed_inv cs cs2 h
  have hlt : i < cs.length := findGoBuildIdx_lt_length cs i hidx
  have hfind : findGoBuildIdx cs2 = some i := by
    rw [hcs2]
    exact findGoBuildIdx_set cs i _ hidx (conjoinText_hasGoBuild _)
  have hget : cs2.getD i [] = conjoinText (cs.getD i []) := by
    rw [hcs2]
    exact getD_set_self cs i _ hlt
  exact processGroup_earlyRet_false cs2 i hfind (by rw [hget]; exact conjoinText_contains _)

/-- A comment that is neither an annotation line nor a bare
whitespace-only `//go:build` directive survives the group rewrite. -/
theorem processGroup_mem_preserved (b : Bool) (cs cs2 : CommentGroup) (c : Comment)
    (h : processGroup b cs = GroupRes.processed cs2)
    (hc : c ∈ cs) (hp : isGoBuildPrefix c = false) (he : isEmptyGoBuild c = false) :
    c ∈ cs2 := by
  cases hidx : findGoBuildIdx cs with
  | none => simp [processGroup, hidx] at h
  | some i =>
    simp only [processGroup, hidx] at h
    have hne : c ≠ cs.getD i [] := by
      intro hceq
      have := findGoBuildIdx_getD_goBuild cs i hidx
      rw [← hceq] at this
      exact absurd this (by simp [hp])
    have hne2 : c ≠ cs[i]?.getD [] := by
      rw [← List.getD_eq_getElem?_getD]
      exact hne
    have hmemset : ∀ v : Comment, c ∈ cs.set i v := fun v =>
      mem_set_of_mem_ne cs i v c hc hne
    by_cases hcl : listContains constraint (cs[i]?.getD []) = true
    · cases b with
      | false => simp [hcl] at h
      | true =>
        simp only [hcl] at h
        by_cases hemp : isEmptyGoBuild (stripAll (cs[i]?.getD [])) = true
        · simp [hcl, hemp] at h
          rw [← h]
          exact List.mem_filter.mpr ⟨hmemset _, by simp [he]⟩
        · simp [hcl, hemp] at h
          rw [← h]
          exact hmemset _
    · rw [Bool.not_eq_true] at hcl
      cases b with
      | true => simp [hcl] at h
      | false =>
        simp [hcl] at h
        rw [← h]
        exact hmemset _

/-- A list is a prefix of itself. -/
theorem isPrefixOf_self (l : List Char) : l.isPrefixOf l = true := by
  rw [ List.isPrefixOf_iff_prefix]

/-- The fresh annotation line `goBuild ++ constraint` starts with the
prefix and contains the clause, so rescanning it returns early under
`builds = false`. -/
theorem processGroup_fresh_earlyRet :
    processGroup false [goBuild ++ constraint] = GroupRes.earlyRet := by
  have hpre : isGoBuildPrefix (goBuild ++ constraint) = true :=
    isPrefixOf_append goBuild constraint
  have hidx : findGoBuildIdx [goBuild ++ constraint] = some 0 := by
    simp [findGoBuildIdx, hpre]
  refine processGroup_earlyRet_false _ 0 hidx ?_
  simp only [List.getD_cons_zero]
  exact listContains_of_suffix constraint constraint (isPrefixOf_self constraint) goBuild

/-- Groups without annotation lines pass through the loop unchanged. -/
theorem processGroups_notFound_all (b : Bool) :
    ∀ gs : List CommentGroup, (∀ g ∈ gs, findGoBuildIdx g = none) →
      processGroups b gs = some (gs, false)
  | [], _ => rfl
  | g :: rest, h => by
    have hg := processGroup_notFound_of_none b g (h g (by simp))
    have hrest := processGroups_notFound_all b rest (fun x hx => h x (by simp [hx]))
    simp [processGroups, hg, hrest]

/-- If the loop reports no annotation present, nothing was touched. -/
theorem processGroups_present_false (b : Bool) :
    ∀ gs gs2 : List CommentGroup, processGroups b gs = some (gs2, false) →
      gs2 = gs ∧ ∀ g ∈ gs, findGoBuildIdx g = none
  | [], gs2, h => by
    simp [processGroups] at h
    simp [h]
  | g :: rest, gs2, h => by
    simp only [processGroups] at h
    cases hpg : processGroup b g with
    | earlyRet => rw [hpg] at h; simp at h
    | notFound =>
      rw [hpg] at h
      cases hrest : processGroups b rest with
      | none => rw [hrest] at h; simp at h
      | some pr =>
        obtain ⟨gs3, p⟩ := pr
        rw [hrest] at h
        simp only [Option.some.injEq, Prod.mk.injEq] at h
        obtain ⟨hgs2, hp⟩ := h
        subst hp
        obtain ⟨hq, hall⟩ := processGroups_present_false b rest gs3 hrest
        subst hq
        refine ⟨hgs2.symm, ?_⟩
        intro x hx
        rcases List.mem_cons.mp hx with hx | hx
        · rw [hx]
          exact processGroup_notFound_inv b g hpg
        · exact hall x hx
    | processed g2 =>
      rw [hpg] at h
      cases hrest : processGroups b rest with
      | none => rw [hrest] at h; simp at h
      | some pr =>
        obtain ⟨gs3, p⟩ := pr
        rw [hrest] at h
        simp at h

/-- After a `builds = false` pass that rewrote or saw an annotation
line, rescanning the produced groups returns early. -/
theorem processGroups_false_rescan : ∀ gs gs2 : List CommentGroup,
    processGroups false gs = some (gs2, true) → processGroups false gs2 = none
  | [], gs2, h => by simp [processGroups] at h
  | g :: rest, gs2, h => by
    simp only [processGroups] at h
    cases hpg : processGroup false g with
    | earlyRet => rw [hpg] at h; simp at h
    | notFound =>
      rw [hpg] at h
      cases hrest : processGroups false rest with
      | none => rw [hrest] at h; simp at h
      | some pr =>
        obtain ⟨gs3, p⟩ := pr
        rw [hrest] at h
        simp only [Option.some.injEq, Prod.mk.injEq] at h
        obtain ⟨hgs2, hp⟩ := h
        subst hp
        have ih := processGroups_false_rescan rest gs3 hrest
        rw [← hgs2]
        simp [processGroups, hpg, ih]
    | processed g2 =>
      rw [hpg] at h
      cases hrest : processGroups false rest with
      | none => rw [hrest] at h; simp at h
      | some pr =>
        obtain ⟨gs3, p⟩ := pr
        rw [hrest] at h
        simp only [Option.some.injEq, Prod.mk.injEq] at h
        obtain ⟨hgs2, -⟩ := h
        rw [← hgs2]
        have hret := processGroup_conjoin_rescan g g2 hpg
        simp [processGroups, hret]

/-- Scanning the groups after the fresh-annotation insertion returns
early (the fresh line is found and already contains the clause). -/
theorem processGroups_insert_none (gs : List CommentGroup)
    (h : ∀ g ∈ gs, findGoBuildIdx g = none) :
    processGroups false (insertGoBuild gs) = none := by
  cases gs with
  | nil => simp [insertGoBuild, processGroups, processGroup_fresh_earlyRet]
  | cons g rest =>
    have hg := processGroup_notFound_of_none false g (h g (by simp))
    simp [insertGoBuild, processGroups, hg, processGroup_fresh_earlyRet]

/-- No group holds an annotation line iff the scan finds none. -/
theorem firstGoBuildLine_eq_none_iff : ∀ gs : List CommentGroup,
    firstGoBuildLine gs = none ↔ ∀ g ∈ gs, findGoBuildIdx g = none
  | [] => by simp [firstGoBuildLine]
  | g :: rest => by
    cases hidx : findGoBuildIdx g with
    | some i =>
      simp only [firstGoBuildLine, hidx]
      constructor
      · intro h
        exact absurd h (by simp)
      · intro h
        exact absurd (h g (by simp)) (by simp [hidx])
    | none =>
      simp only [firstGoBuildLine, hidx]
      rw [firstGoBuildLine_eq_none_iff rest]
      constructor
      · intro h x hx
        rcases List.mem_cons.mp hx with hx | hx
        · rw [hx]; exact hidx
        · exact h x hx
      · intro h x hx
        exact h x (by simp [hx])

/-- When the first annotation line lacks the clause, a `builds = true`
scan returns early at that group. -/
theorem processGroups_true_none_of_first : ∀ (gs : List CommentGroup) (t : Comment),
    firstGoBuildLine gs = some t → listContains constraint t = false →
    processGroups true gs = none
  | [], t, h, _ => by simp [firstGoBuildLine] at h
  | g :: rest, t, h, hc => by
    cases hidx : findGoBuildIdx g with
    | some i =>
      simp only [firstGoBuildLine, hidx, Option.some.injEq] at h
      have := processGroup_earlyRet_true g i hidx (by rw [h]; exact hc)
      simp [processGroups, this]
    | none =>
      simp only [firstGoBuildLine, hidx] at h
      have hnf := processGroup_notFound_of_none true g hidx
      have := processGroups_true_none_of_first rest t h hc
      simp [processGroups, hnf, this]

/-- Rewriting with `builds = true` never triggers the insertion, so the
candidate keeps exactly the processed groups. -/
theorem rewriteCandidate_inv (f : GoFile) (b : Bool) (f2 : GoFile)
    (h : rewriteCandidate f b = some f2) :
    ∃ gs present, processGroups b f.comments = some (gs, present)
      ∧ f2 = GoFile.mk (if !b && !present then insertGoBuild gs else gs) f.body := by
  unfold rewriteCandidate at h
  cases hpg : processGroups b f.comments with
  | none => rw [hpg] at h; simp at h
  | some pr =>
    obtain ⟨gs, present⟩ := pr
    rw [hpg] at h
    simp only [Option.some.injEq] at h
    exact ⟨gs, present, rfl, h.symm⟩

/-- C3 counterexample: the claim asserts idempotence for every
parseable file and fixed desired value.  For a file whose single comment
group holds two annotation lines each consisting of exactly the managed
clause, the first `desired = false` application strips and deletes only
the first of them (`changed = true`), and the second application then
strips the remaining one, reporting `changed = true` again instead of
the claimed `false`. -/
theorem fixup_not_idempotent_cex :
    (fixupFileConstraints (fixupFileConstraints
        (GoFile.mk [[lit "//go:build !tinygo || tinygo.enable",
                     lit "//go:build !tinygo || tinygo.enable"]] (lit "package main"))
        true false).1 true false).2 = true := by decide

/-- C3 (amended): the rewriter is idempotent for `desired = true`
(`builds = false`) unconditionally; for `desired = false`
(`builds = true`) it is idempotent provided the authoritative annotation
line left by the first application, if any, no longer contains the
managed clause (`clauseCleared`) — the counterexample shows the claim
fails without that proviso.  In all covered cases the second application
reports `changed = false` and leaves the file where the first left
it. -/
theorem fixup_idempotent_amended (f : GoFile) (b : Bool)
    (h : b = true → clauseCleared (fixupFileConstraints f b false).1 = true) :
    fixupFileConstraints (fixupFileConstraints f b false).1 b false
      = ((fixupFileConstraints f b false).1, false) := by
  cases hrc : rewriteCandidate f b with
  | none =>
    have hfix : fixupFileConstraints f b false = (f, false) := by
      simp [fixupFileConstraints, hrc]
    rw [hfix]
    simpa using hfix
  | some f2 =>
    by_cases hpr : printFile f2 = printFile f
    · have hfix : fixupFileConstraints f b false = (f, false) := by
        simp [fixupFileConstraints, hrc, hpr]
      rw [hfix]
      simpa using hfix
    · have hfix : fixupFileConstraints f b false = (f2, true) := by
        simp [fixupFileConstraints, hrc, hpr]
      rw [hfix]
      simp only
      obtain ⟨gs, present, hpg, hf2⟩ := rewriteCandidate_inv f b f2 hrc
      cases b with
      | false =>
        have hnone : rewriteCandidate f2 false = none := by
          cases present with
          | true =>
            have hcom : f2.comments = gs := by rw [hf2]; simp
            have := processGroups_false_rescan f.comments gs hpg
            simp [rewriteCandidate, hcom, this]
          | false =>
            obtain ⟨hq, hall⟩ := processGroups_present_false false f.comments gs hpg
            have hcom : f2.comments = insertGoBuild gs := by rw [hf2]; simp
            have := processGroups_insert_none gs (by rw [hq]; exact hall)
            simp [rewriteCandidate, hcom, this]
        simp [fixupFileConstraints, hnone]
      | true =>
        have hcc : clauseCleared f2 = true := by
          have := h rfl
          rw [hfix] at this
          simpa using this
        have hcom : f2.comments = gs := by rw [hf2]; simp
        unfold clauseCleared at hcc
        cases hfl : firstGoBuildLine f2.comments with
        | none =>
          have hall := (firstGoBuildLine_eq_none_iff f2.comments).mp hfl
          have hpg2 := processGroups_notFound_all true f2.comments hall
          have hcand : rewriteCandidate f2 true = some f2 := by
            simp [rewriteCandidate, hpg2]
          simp [fixupFileConstraints, hcand]
        | some t =>
          rw [hfl] at hcc
          have hct : listContains constraint t = false := by
            simpa using hcc
          have := processGroups_true_none_of_first f2.comments t hfl hct
          have hcand : rewriteCandidate f2 true = none := by
            simp [rewriteCandidate, this]
          simp [fixupFileConstraints, hcand]

/-- Witness for the amended C3: a file whose annotation is exactly the
managed clause; the first strip removes it, the proviso holds, and the
second application is a no-op. -/
theorem fixup_idempotent_amended_witness :
    (clauseCleared (fixupFileConstraints
        (GoFile.mk [[lit "//go:build !tinygo || tinygo.enable"]] (lit "package main"))
        true false).1 = true)
    ∧ fixupFileConstraints (fixupFileConstraints
        (GoFile.mk [[lit "//go:build !tinygo || tinygo.enable"]] (lit "package main"))
        true false).1 true false
      = ((fixupFileConstraints
          (GoFile.mk [[lit "//go:build !tinygo || tinygo.enable"]] (lit "package main"))
          true false).1, false) :=
  ⟨by decide,
   fixup_idempotent_amended
     (GoFile.mk [[lit "//go:build !tinygo || tinygo.enable"]] (lit "package main"))
     true (fun _ => by decide)⟩

/-- Comments which are neither annotation lines nor bare whitespace-only
directives survive the whole loop, group by group. -/
theorem processGroups_mem_preserved (b : Bool) :
    ∀ (gs gs2 : List CommentGroup) (p : Bool),
      processGroups b gs = some (gs2, p) →
      ∀ g ∈ gs, ∀ c ∈ g, isGoBuildPrefix c = false → isEmptyGoBuild c = false →
        ∃ g2 ∈ gs2, c ∈ g2
  | [], gs2, p, h => by simp [processGroups] at h; simp [h.1]
  | g0 :: rest, gs2, p, h => by
    intro g hg c hcg hp he
    simp only [processGroups] at h
    cases hpg : processGroup b g0 with
    | earlyRet => rw [hpg] at h; simp at h
    | notFound =>
      rw [hpg] at h
      cases hrest : processGroups b rest with
      | none => rw [hrest] at h; simp at h
      | some pr =>
        obtain ⟨gs3, q⟩ := pr
        rw [hrest] at h
        simp only [Option.some.injEq, Prod.mk.injEq] at h
        obtain ⟨hgs2, -⟩ := h
        rcases List.mem_cons.mp hg with hgg | hgg
        · exact ⟨g0, by simp [← hgs2], by rw [← hgg]; exact hcg⟩
        · obtain ⟨g2, hg2, hcg2⟩ :=
            processGroups_mem_preserved b rest gs3 q hrest g hgg c hcg hp he
          exact ⟨g2, by simp [← hgs2, hg2], hcg2⟩
    | processed g2 =>
      rw [hpg] at h
      cases hrest : processGroups b rest with
      | none => rw [hrest] at h; simp at h
      | some pr =>
        obtain ⟨gs3, q⟩ := pr
        rw [hrest] at h
        simp only [Option.some.injEq, Prod.mk.injEq] at h
        obtain ⟨hgs2, -⟩ := h
        rcases List.mem_cons.mp hg with hgg | hgg
        · refine ⟨g2, by simp [← hgs2], ?_⟩
          exact processGroup_mem_preserved b g0 g2 c hpg (by rw [← hgg]; exact hcg) hp he
        · obtain ⟨g3, hg3, hcg3⟩ :=
            processGroups_mem_preserved b rest gs3 q hrest g hgg c hcg hp he
          exact ⟨g3, by simp [← hgs2, hg3], hcg3⟩

/-- The insertion only adds a group. -/
theorem mem_insertGoBuild (gs : List CommentGroup) (g : CommentGroup)
    (h : g ∈ gs) : g ∈ insertGoBuild gs := by
  cases gs with
  | nil => simp at h
  | cons g0 rest =>
    rcases List.mem_cons.mp h with hh | hh
    · simp [insertGoBuild, hh]
    · simp [insertGoBuild, hh]

/-- C4 counterexample: the claim asserts that when an edit is made, all
non-annotation comments are preserved byte-for-byte.  A comment whose
text is the bare `//go:build` (no trailing space, hence not an
annotation line for the rewriter) is deleted by the empty-directive
cleanup when the group's real annotation line is stripped to empty: the
edit is made (`changed = true`) yet the comment is gone. -/
theorem fixup_deletes_bare_directive_cex :
    (fixupFileConstraints
        (GoFile.mk [[lit "//go:build", lit "//go:build !tinygo || tinygo.enable"]]
          (lit "package main")) true false).2 = true
    ∧ ∀ g ∈ (fixupFileConstraints
        (GoFile.mk [[lit "//go:build", lit "//go:build !tinygo || tinygo.enable"]]
          (lit "package main")) true false).1.comments,
        lit "//go:build" ∉ g := by decide

/-- C4 (amended): a file with no annotation line is a no-op for
`desired = false` (`builds = true`): `changed = false` and the on-disk
state is untouched.  When an edit is made, the file body is preserved,
and every comment that neither bears the annotation prefix nor consists
of the bare directive with only whitespace is still present; the
counterexample shows the bare-directive carve-out is necessary. -/
theorem fixup_noop_and_frame_amended (f : GoFile) (b : Bool) :
    (firstGoBuildLine f.comments = none → fixupFileConstraints f true false = (f, false))
    ∧ (fixupFileConstraints f b false).1.body = f.body
    ∧ ∀ c : Comment, isGoBuildPrefix c = false → isEmptyGoBuild c = false →
        (∃ g ∈ f.comments, c ∈ g) →
        ∃ g2 ∈ (fixupFileConstraints f b false).1.comments, c ∈ g2 := by
  refine ⟨?_, ?_, ?_⟩
  · intro hfl
    have hall := (firstGoBuildLine_eq_none_iff f.comments).mp hfl
    have hpg := processGroups_notFound_all true f.comments hall
    have hcand : rewriteCandidate f true = some f := by
      simp [rewriteCandidate, hpg]
    simp [fixupFileConstraints, hcand]
  · cases hrc : rewriteCandidate f b with
    | none => simp [fixupFileConstraints, hrc]
    | some f2 =>
      obtain ⟨gs, present, hpg, hf2⟩ := rewriteCandidate_inv f b f2 hrc
      by_cases hpr : printFile f2 = printFile f
      · simp [fixupFileConstraints, hrc, hpr]
      · have hfix : fixupFileConstraints f b false = (f2, true) := by
          simp [fixupFileConstraints, hrc, hpr]
        rw [hfix, hf2]
  · intro c hp he hmem
    obtain ⟨g, hg, hcg⟩ := hmem
    cases hrc : rewriteCandidate f b with
    | none =>
      simp only [fixupFileConstraints, hrc]
      exact ⟨g, hg, hcg⟩
    | some f2 =>
      obtain ⟨gs, present, hpg, hf2⟩ := rewriteCandidate_inv f b f2 hrc
      obtain ⟨g2, hg2, hcg2⟩ :=
        processGroups_mem_preserved b f.comments gs present hpg g hg c hcg hp he
      by_cases hpr : printFile f2 = printFile f
      · simp only [fixupFileConstraints, hrc, hpr, if_pos]
        exact ⟨g, hg, hcg⟩
      · have : ∃ g3 ∈ f2.comments, c ∈ g3 := by
          rw [hf2]
          by_cases hins : (!b && !present) = true
          · simp only [hins, if_pos]
            exact ⟨g2, mem_insertGoBuild gs g2 hg2, hcg2⟩
          · simp only [hins]
            simp only [Bool.not_eq_true] at hins
            simp [hins]
            exact ⟨g2, hg2, hcg2⟩
        simp [fixupFileConstraints, hrc, hpr]
        exact this

/-- Witness for the amended C4: a file holding only a copyright comment
is untouched, its body preserved and its comment still present. -/
theorem fixup_noop_and_frame_amended_witness :
    (fixupFileConstraints (GoFile.mk [[lit "// Copyright"]] (lit "package main")) true false
        = (GoFile.mk [[lit "// Copyright"]] (lit "package main"), false))
    ∧ (fixupFileConstraints (GoFile.mk [[lit "// Copyright"]] (lit "package main")) true false).1.body
        = lit "package main"
    ∧ ∃ g2 ∈ (fixupFileConstraints
        (GoFile.mk [[lit "// Copyright"]] (lit "package main")) true false).1.comments,
        lit "// Copyright" ∈ g2 :=
  ⟨(fixup_noop_and_frame_amended (GoFile.mk [[lit "// Copyright"]] (lit "package main")) true).1
      (by decide),
   (fixup_noop_and_frame_amended (GoFile.mk [[lit "// Copyright"]] (lit "package main")) true).2.1,
   (fixup_noop_and_frame_amended (GoFile.mk [[lit "// Copyright"]] (lit "package main")) true).2.2
      (lit "// Copyright") (by decide) (by decide)
      ⟨[lit "// Copyright"], by decide, by decide⟩⟩

/-- C6 counterexample: the claim says only the first conditional-build
line among the file's comment groups is acted upon and later ones are
left untouched.  With two comment groups each holding an annotation
line and `desired = true`, both lines get the clause conjoined. -/
theorem rewriter_touches_later_groups_cex :
    fixupFileConstraints
        (GoFile.mk [[lit "//go:build foo"], [lit "//go:build bar"]] (lit "package main"))
        false false
      = (GoFile.mk [[lit "//go:build (!tinygo || tinygo.enable) && (foo)"],
                    [lit "//go:build (!tinygo || tinygo.enable) && (bar)"]]
          (lit "package main"), true) := by decide

/-- C6 (amended): within each comment group, only the first annotation
line is rewritten: every other comment of the group that is not a
whitespace-only bare directive is still present after the group is
processed.  Across groups, however, the loop goes on: the first
annotation line of every group is processed, as the counterexample
shows. -/
theorem rewriter_first_line_per_group_amended (b : Bool) (cs cs2 : CommentGroup) (i : Nat)
    (h : processGroup b cs = GroupRes.processed cs2)
    (hidx : findGoBuildIdx cs = some i) :
    ∀ j, j < cs.length → j ≠ i → isEmptyGoBuild (cs.getD j []) = false →
      cs.getD j [] ∈ cs2 := by
  intro j hj hji hje
  have hgd : ∀ v : Comment, (cs.set i v).getD j [] = cs.getD j [] :=
    fun v => getD_set_ne cs i j v hji
  have hmemset : ∀ v : Comment, cs.getD j [] ∈ cs.set i v := by
    intro v
    have hl : j < (cs.set i v).length := by simpa using hj
    have := getD_mem_of_lt (cs.set i v) j hl
    rwa [hgd v] at this
  have hje2 : isEmptyGoBuild (cs[j]?.getD []) = false := by
    rw [← List.getD_eq_getElem?_getD]
    exact hje
  simp only [processGroup, hidx] at h
  by_cases hcl : listContains constraint (cs[i]?.getD []) = true
  · cases b with
    | false => simp [hcl] at h
    | true =>
      by_cases hemp : isEmptyGoBuild (stripAll (cs[i]?.getD [])) = true
      · simp [hcl, hemp] at h
        rw [← h]
        exact List.mem_filter.mpr ⟨hmemset _, by simp [hje, hje2]⟩
      · simp [hcl, hemp] at h
        rw [← h]
        exact hmemset _
  · rw [Bool.not_eq_true] at hcl
    cases b with
    | true => simp [hcl] at h
    | false =>
      simp [hcl] at h
      rw [← h]
      exact hmemset _

/-- Witness for the amended C6: in a group holding a leading copyright
comment and an annotation line, the copyright comment survives the
conjoining rewrite. -/
theorem rewriter_first_line_per_group_amended_witness :
    lit "// Copyright" ∈
      ([lit "// Copyright", lit "//go:build foo"].set 1
        (conjoinText (lit "//go:build foo"))) :=
  rewriter_first_line_per_group_amended false
    [lit "// Copyright", lit "//go:build foo"]
    ([lit "// Copyright", lit "//go:build foo"].set 1 (conjoinText (lit "//go:build foo")))
    1 (by decide) (by decide) 0 (by decide) (by decide) (by decide)

/-- Clean leading groups pass through the loop and keep later results. -/
theorem processGroups_clean_lead (b : Bool) :
    ∀ (gs1 rest gs2 : List CommentGroup) (p : Bool),
      (∀ g ∈ gs1, findGoBuildIdx g = none) →
      processGroups b rest = some (gs2, p) →
      processGroups b (gs1 ++ rest) = some (gs1 ++ gs2, p)
  | [], rest, gs2, p, _, h => by simpa using h
  | g :: gs1, rest, gs2, p, hcl, h => by
    have hg := processGroup_notFound_of_none b g (hcl g (by simp))
    have ih := processGroups_clean_lead b gs1 rest gs2 p
      (fun x hx => hcl x (by simp [hx])) h
    simp [processGroups, hg, ih]

/-- C7: when the single annotation line of the file is present, does not
contain the managed clause and carries expression `E`, rewriting with
desired = true (`builds = false`) replaces it by a line whose expression
is exactly `(<clause>) && (<E>)`; that textual shape is the rendering of
a conjunction whose evaluation is `clause && E` under every tag
assignment. -/
theorem conjoin_line_shape (gs1 gs2 : List CommentGroup) (pre post : CommentGroup)
    (E body : List Char)
    (h1 : ∀ g ∈ gs1, findGoBuildIdx g = none)
    (h2 : ∀ c ∈ pre, isGoBuildPrefix c = false)
    (h3 : listContains constraint (goBuild ++ E) = false)
    (h4 : ∀ g ∈ gs2, findGoBuildIdx g = none) :
    rewriteCandidate
        (GoFile.mk (gs1 ++ (pre ++ (goBuild ++ E) :: post) :: gs2) body) false
      = some (GoFile.mk
          (gs1 ++ (pre ++ (goBuild ++ lit "(" ++ constraint ++ lit ") && (" ++ E ++ lit ")")
              :: post) :: gs2) body)
    ∧ ∀ (env : List Char → Bool) (cE eE : BuildExpr),
        printExpr cE = constraint → printExpr eE = E →
        (printExpr (BuildExpr.band (BuildExpr.paren cE) (BuildExpr.paren eE))
            = lit "(" ++ constraint ++ lit ") && (" ++ E ++ lit ")"
          ∧ evalExpr env (BuildExpr.band (BuildExpr.paren cE) (BuildExpr.paren eE))
            = (evalExpr env cE && evalExpr env eE)) := by
  constructor
  · have hpre : isGoBuildPrefix (goBuild ++ E) = true := isPrefixOf_append goBuild E
    have hidx := findGoBuildIdx_append pre (goBuild ++ E) post h2 hpre
    have hgd := getD_append_len pre (goBuild ++ E) post
    have hcj : conjoinText (goBuild ++ E)
        = goBuild ++ lit "(" ++ constraint ++ lit ") && (" ++ E ++ lit ")" := by
      unfold conjoinText
      rw [List.drop_left]
    have hgrp := processGroup_conjoin (pre ++ (goBuild ++ E) :: post) pre.length hidx
      (by rw [hgd]; exact h3)
    rw [hgd, hcj, set_append_len] at hgrp
    have hrest := processGroups_notFound_all false gs2 h4
    have hone : processGroups false ((pre ++ (goBuild ++ E) :: post) :: gs2)
        = some ((pre ++ (goBuild ++ lit "(" ++ constraint ++ lit ") && ("
            ++ E ++ lit ")") :: post) :: gs2, true) := by
      simp [processGroups, hgrp, hrest]
    have hall := processGroups_clean_lead false gs1 _ _ true h1 hone
    simp [rewriteCandidate, hall]
  · intro env cE eE hcE heE
    constructor
    · simp [printExpr, hcE, heE, lit, List.append_assoc]
    · rfl

/-- Witness for C7. -/
theorem conjoin_line_shape_witness :
    rewriteCandidate (GoFile.mk [[goBuild ++ lit "foo"]] (lit "package main")) false
      = some (GoFile.mk
          [[goBuild ++ lit "(" ++ constraint ++ lit ") && (" ++ lit "foo" ++ lit ")"]]
          (lit "package main"))
    ∧ printExpr (BuildExpr.band (BuildExpr.paren (BuildExpr.tag constraint))
          (BuildExpr.paren (BuildExpr.tag (lit "foo"))))
        = lit "(" ++ constraint ++ lit ") && (" ++ lit "foo" ++ lit ")" :=
  ⟨(conjoin_line_shape [] [] [] [] (lit "foo") (lit "package main")
      (by decide) (by decide) (by decide) (by decide)).1,
   ((conjoin_line_shape [] [] [] [] (lit "foo") (lit "package main")
      (by decide) (by decide) (by decide) (by decide)).2
      (fun _ => true) (BuildExpr.tag constraint) (BuildExpr.tag (lit "foo")) rfl rfl).1⟩

/-- C8: with no annotation line anywhere in the file and desired = true
(`builds = false`), a fresh annotation line containing exactly the
managed clause is inserted: immediately after the first comment group
when one exists, and as the file's first comment otherwise. -/
theorem insert_annotation_placement (f : GoFile)
    (h : ∀ g ∈ f.comments, findGoBuildIdx g = none) :
    rewriteCandidate f false
      = some (GoFile.mk
          (match f.comments with
           | [] => [[goBuild ++ constraint]]
           | g :: rest => g :: [goBuild ++ constraint] :: rest) f.body) := by
  have hpg := processGroups_notFound_all false f.comments h
  cases hcm : f.comments with
  | nil =>
    rw [hcm] at hpg
    simp [rewriteCandidate, hcm, hpg, insertGoBuild]
  | cons g rest =>
    rw [hcm] at hpg
    simp [rewriteCandidate, hcm, hpg, insertGoBuild]

/-- Witness for C8: the fresh annotation group lands right after the
copyright header group. -/
theorem insert_annotation_placement_witness :
    rewriteCandidate (GoFile.mk [[lit "// Copyright"]] (lit "package main")) false
      = some (GoFile.mk [[lit "// Copyright"], [goBuild ++ constraint]]
          (lit "package main")) :=
  insert_annotation_placement
    (GoFile.mk [[lit "// Copyright"]] (lit "package main")) (by decide)

/-- No match can start at a non-space character other than `!` or `(`. -/
theorem matchCore_cons_ne (c : Char) (s : List Char)
    (h1 : isSp c = false) (h2 : c ≠ '!') : matchCore (c :: s) = none := by
  have h2b : ¬('!' = c) := fun h => h2 h.symm
  simp [matchCore, dropSpaces, List.dropWhile, h1, dropLit, lit, h2b,
    List.cons_prefix_cons]

/-- Likewise for the whole pattern with its optional `\(?`. -/
theorem matchAt_cons_ne (c : Char) (s : List Char)
    (h1 : isSp c = false) (h2 : c ≠ '!') (h3 : c ≠ '(') : matchAt (c :: s) = none := by
  have h2b : ¬('!' = c) := fun h => h2 h.symm
  simp [matchAt, h3, matchCore, dropSpaces, List.dropWhile, h1, dropLit, lit, h2b,
    List.cons_prefix_cons]

/-- No match starts at a space directly followed by `(`: the greedy
`\s*` eats the space and then `!tinygo` fails on the parenthesis. -/
theorem matchAt_sp_lparen (s : List Char) : matchAt (' ' :: '(' :: s) = none := by
  simp [matchAt, matchCore, dropSpaces, List.dropWhile, isSp, dropLit, lit,
    List.cons_prefix_cons]

/-- The match of the regexp body on the canonical clause text: it
consumes `!tinygo || tinygo.enable) && (` and stops before the space
and parenthesis that follow. -/
theorem matchCore_clause (t : List Char) :
    matchCore (lit "!tinygo || tinygo.enable) && (" ++ t) = some (lit " (" ++ t) := by
  simp [matchCore, lit, dropSpaces, dropLit, spacesPlus, isSp]

/-- The full pattern starting at the opening parenthesis of the
canonical parenthesized clause. -/
theorem matchAt_lparen_clause (t : List Char) :
    matchAt ('(' :: (lit "!tinygo || tinygo.enable) && (" ++ t))
      = some (lit " (" ++ t) := by
  simp [matchAt, matchCore_clause t]

/-- One scan step with no match at the head. -/
theorem stripAux_cons_none (n : Nat) (c : Char) (rest : List Char)
    (h : matchAt (c :: rest) = none) :
    stripAux (n + 1) (c :: rest) = c :: stripAux n rest := by
  simp [stripAux, h]

/-- One scan step deleting a match at the head. -/
theorem stripAux_cons_some (n : Nat) (c : Char) (rest rem : List Char)
    (h : matchAt (c :: rest) = some rem) :
    stripAux (n + 1) (c :: rest) = stripAux n rem := by
  simp [stripAux, h]

/-- The scan walks over characters at which no match can start. -/
theorem stripAux_skip : ∀ a : List Char,
    (∀ c ∈ a, isSp c = false ∧ c ≠ '!' ∧ c ≠ '(') →
    ∀ (n : Nat) (s : List Char), stripAux (a.length + n) (a ++ s) = a ++ stripAux n s
  | [], _, n, s => by simp
  | c :: a, h, n, s => by
    obtain ⟨h1, h2, h3⟩ := h c (by simp)
    have hrest : ∀ x ∈ a, isSp x = false ∧ x ≠ '!' ∧ x ≠ '(' :=
      fun x hx => h x (by simp [hx])
    have hm := matchAt_cons_ne c (a ++ s) h1 h2 h3
    have hlen : (c :: a).length + n = (a.length + n) + 1 := by
      simp only [List.length_cons]
      omega
    rw [hlen, List.cons_append, stripAux_cons_none _ _ _ hm, stripAux_skip a hrest n s]
    simp

/-- A match-free string is returned unchanged by the scan. -/
theorem stripAux_no_match : ∀ (n : Nat) (s : List Char),
    hasMatch s = false → stripAux n s = s
  | 0, _, _ => rfl
  | _ + 1, [], _ => rfl
  | n + 1, c :: rest, h => by
    cases hm : matchAt (c :: rest) with
    | some r => simp [hasMatch, hm] at h
    | none =>
      simp only [hasMatch, hm, Option.isSome_none, Bool.false_or] at h
      rw [stripAux_cons_none n c rest hm, stripAux_no_match n rest h]

/-- Stripping the canonical conjoined line `(clause) && (E)`: the
parenthesized clause and the following `&&` are deleted, nothing else,
provided no further match hides in the remainder. -/
theorem stripAll_conjoined_shape (E : List Char)
    (h : hasMatch (lit " (" ++ (E ++ lit ")")) = false) :
    stripAll (goBuild ++ lit "(" ++ constraint ++ lit ") && (" ++ E ++ lit ")")
      = lit "//go:build  (" ++ (E ++ lit ")") := by
  have hshape : goBuild ++ lit "(" ++ constraint ++ lit ") && (" ++ E ++ lit ")"
      = lit "//go:build" ++ (' ' :: '(' ::
          (lit "!tinygo || tinygo.enable) && (" ++ (E ++ lit ")"))) := by
    simp [goBuild, constraint, lit]
  have hlen : (goBuild ++ lit "(" ++ constraint ++ lit ") && (" ++ E ++ lit ")").length
      = (lit "//go:build").length + (33 + E.length) := by
    simp [goBuild, constraint, lit]
    omega
  unfold stripAll
  rw [hlen, hshape]
  rw [stripAux_skip (lit "//go:build") (by decide) (33 + E.length)
    (' ' :: '(' :: (lit "!tinygo || tinygo.enable) && (" ++ (E ++ lit ")")))]
  have h33 : 33 + E.length = 32 + E.length + 1 := by omega
  rw [h33, stripAux_cons_none _ _ _ (matchAt_sp_lparen _)]
  have h32 : 32 + E.length = 31 + E.length + 1 := by omega
  rw [h32, stripAux_cons_some _ _ _ _ (matchAt_lparen_clause (E ++ lit ")"))]
  rw [stripAux_no_match _ _ h]
  simp [lit]

/-- Rendering of a file whose only group holds one comment. -/
theorem printFile_single (x body : List Char) :
    printFile (GoFile.mk [[x]] body) = x ++ (lit "\n\n" ++ body) := by
  simp [printFile, printGroup, joinWith]

/-- Rendering of a file whose only group was emptied: the group
disappears from the output. -/
theorem printFile_emptied (body : List Char) :
    printFile (GoFile.mk [[]] body) = lit "\n\n" ++ body := by
  simp [printFile, joinWith]

/-- C5 counterexample: the claim says stripping removes exactly the
managed clause's sub-expression including an adjacent conjunction
operator.  On `//go:build foo && (!tinygo || tinygo.enable)` the
rewriter deletes only the parenthesized clause: the adjacent preceding
`&&` survives, leaving the dangling expression `foo && `. -/
theorem strip_preceding_conjunction_cex :
    fixupFileConstraints
        (GoFile.mk [[lit "//go:build foo && (!tinygo || tinygo.enable)"]]
          (lit "package main")) true false
      = (GoFile.mk [[lit "//go:build foo && "]] (lit "package main"), true) := by
  decide

/-- C5 (amended): with the annotation line present and containing the
clause and `desired = false` (`builds = true`): (a) a line consisting of
exactly the managed clause is stripped to the bare directive, the line
is deleted, and the emptied comment group disappears from the printed
file; (b) on the canonical conjoined shape `(<clause>) && (<E>)` the
parenthesized clause together with the FOLLOWING conjunction operator is
removed, leaving `(<E>)` (a conjunction operator preceding the clause is
not removed, as the counterexample shows). -/
theorem strip_removal_amended :
    (∀ body : List Char,
      fixupFileConstraints (GoFile.mk [[goBuild ++ constraint]] body) true false
        = (GoFile.mk [[]] body, true))
    ∧ ∀ E body : List Char, hasMatch (lit " (" ++ (E ++ lit ")")) = false →
        fixupFileConstraints
          (GoFile.mk [[goBuild ++ lit "(" ++ constraint ++ lit ") && (" ++ E ++ lit ")"]]
            body) true false
        = (GoFile.mk [[lit "//go:build  (" ++ (E ++ lit ")")]] body, true) := by
  constructor
  · intro body
    have hgrp : processGroups true [[goBuild ++ constraint]] = some ([[]], true) := by
      decide
    have hcand : rewriteCandidate (GoFile.mk [[goBuild ++ constraint]] body) true
        = some (GoFile.mk [[]] body) := by
      simp [rewriteCandidate, hgrp]
    have hneq : ¬(printFile (GoFile.mk ([[]] : List CommentGroup) body)
        = printFile (GoFile.mk [[goBuild ++ constraint]] body)) := by
      rw [printFile_emptied, printFile_single]
      intro heq
      have := congrArg List.length heq
      simp [goBuild, constraint, lit] at this
    simp [fixupFileConstraints, hcand, hneq]
  · intro E body h
    simp only [List.append_assoc]
    have hpre : isGoBuildPrefix
        (goBuild ++ (lit "(" ++ (constraint ++ (lit ") && (" ++ (E ++ lit ")"))))) = true :=
      isPrefixOf_append goBuild _
    have hcont : listContains constraint
        (goBuild ++ (lit "(" ++ (constraint ++ (lit ") && (" ++ (E ++ lit ")"))))) = true := by
      have := listContains_of_suffix constraint
        (constraint ++ (lit ") && (" ++ (E ++ lit ")")))
        (isPrefixOf_append constraint _) (goBuild ++ lit "(")
      simpa [List.append_assoc] using this
    have hidx : findGoBuildIdx
        [goBuild ++ (lit "(" ++ (constraint ++ (lit ") && (" ++ (E ++ lit ")"))))]
        = some 0 := by
      simp [findGoBuildIdx, hpre]
    have hstrip : stripAll
        (goBuild ++ (lit "(" ++ (constraint ++ (lit ") && (" ++ (E ++ lit ")")))))
        = lit "//go:build  (" ++ (E ++ lit ")") := by
      have := stripAll_conjoined_shape E h
      simpa [List.append_assoc] using this
    have hnotempty : isEmptyGoBuild (lit "//go:build  (" ++ (E ++ lit ")")) = false := by
      simp [isEmptyGoBuild, lit, dropSpaces, List.dropWhile, isSp, dropLit,
        List.cons_prefix_cons]
    have hgrp : processGroup true
        [goBuild ++ (lit "(" ++ (constraint ++ (lit ") && (" ++ (E ++ lit ")"))))]
        = GroupRes.processed [lit "//go:build  (" ++ (E ++ lit ")")] := by
      simp [processGroup, hidx, hcont, hstrip, hnotempty]
    have hgrps : processGroups true
        [[goBuild ++ (lit "(" ++ (constraint ++ (lit ") && (" ++ (E ++ lit ")"))))]]
        = some ([[lit "//go:build  (" ++ (E ++ lit ")")]], true) := by
      simp [processGroups, hgrp]
    have hcand : rewriteCandidate
        (GoFile.mk [[goBuild ++ (lit "(" ++ (constraint ++ (lit ") && (" ++ (E ++ lit ")"))))]]
          body) true
        = some (GoFile.mk [[lit "//go:build  (" ++ (E ++ lit ")")]] body) := by
      simp [rewriteCandidate, hgrps]
    have hneq : ¬(printFile (GoFile.mk [[lit "//go:build  (" ++ (E ++ lit ")")]] body)
        = printFile (GoFile.mk
            [[goBuild ++ (lit "(" ++ (constraint ++ (lit ") && (" ++ (E ++ lit ")"))))]]
            body)) := by
      rw [printFile_single, printFile_single]
      intro heq
      have := congrArg List.length heq
      simp [goBuild, constraint, lit] at this
    simp [fixupFileConstraints, hcand, hneq]

/-- Witness for the amended C5 at a concrete expression `foo`. -/
theorem strip_removal_amended_witness :
    fixupFileConstraints (GoFile.mk [[goBuild ++ constraint]] (lit "package main"))
        true false
      = (GoFile.mk [[]] (lit "package main"), true)
    ∧ fixupFileConstraints
        (GoFile.mk
          [[goBuild ++ lit "(" ++ constraint ++ lit ") && (" ++ lit "foo" ++ lit ")"]]
          (lit "package main")) true false
      = (GoFile.mk [[lit "//go:build  (" ++ (lit "foo" ++ lit ")")]]
          (lit "package main"), true) :=
  ⟨strip_removal_amended.1 (lit "package main"),
   strip_removal_amended.2 (lit "foo") (lit "package main") (by decide)⟩

/-- The error component of the collection loop is `none` on every path:
the `break` on a fatal result never assigns the named return. -/
theorem collectResults_err_none :
    ∀ (rs : List WorkerResult) (st : BuildStatus), (collectResults rs st).2 = none
  | [], _ => rfl
  | r :: rest, st => by
    unfold collectResults
    by_cases h : r.err.isSome
    · simp [h]
    · simp [h, collectResults_err_none rest]

/-- C1: the spec says `buildDirs` returns a non-nil error iff some
component's build was Fatal, the Fatal error being surfaced to the
caller.  The code does break out of collection on the first fatal
result, but it never assigns the named return `err`, so the caller
always receives a nil error: evaluated at a run whose only result is a
fatal launch failure, the returned error is `none`, and in fact the
returned error is `none` for every possible result sequence.  `main`'s
`if nil != err` check after `buildDirs` is therefore dead code. -/
theorem buildDirs_fatal_error_not_surfaced :
    (buildDirs [WorkerResult.mk "cmds/core/ls" (BuildRes.mk false false) false
        (some "exec tinygo: executable file not found")]).2 = none
    ∧ ∀ results : List WorkerResult, (buildDirs results).2 = none := by
  refine ⟨rfl, fun results => ?_⟩
  exact collectResults_err_none results (BuildStatus.mk [] [] [] [])

/-- Each collected non-fatal result adds its directory to exactly one of
the three classification buckets. -/
theorem countBuckets_classify (st : BuildStatus) (r : WorkerResult) (d : String) :
    countBuckets (classify st r) d
      = countBuckets st d + (if r.dir = d then 1 else 0) := by
  unfold classify countBuckets
  by_cases hx : r.buildRes.excluded <;> by_cases he : r.buildRes.err <;>
    by_cases hw : r.didWork <;>
      · simp [hx, he, hw, List.count_append, List.count_singleton']
        omega

/-- Collecting a fatal-free result sequence adds each directory's
multiplicity to the buckets. -/
theorem collect_count (d : String) :
    ∀ (rs : List WorkerResult) (st : BuildStatus), (∀ r ∈ rs, r.err = none) →
      countBuckets (collectResults rs st).1 d
        = countBuckets st d + (rs.map (fun r => r.dir)).count d
  | [], st, _ => by simp [collectResults]
  | r :: rest, st, h => by
    have hr : r.err = none := h r (List.mem_cons_self r rest)
    have hrest : ∀ x ∈ rest, x.err = none := fun x hx => h x (List.mem_cons_of_mem r hx)
    have : r.err.isSome = false := by simp [hr]
    unfold collectResults
    rw [if_neg (by simp [this])]
    rw [collect_count d rest (classify st r) hrest, countBuckets_classify]
    simp [List.count_cons]
    by_cases hd : r.dir = d
    · simp [hd]
      omega
    · simp [hd]

/-- C2: in a run that completes without a Fatal abort, every component
of the input list is classified into exactly one of the `passing`,
`failing`, `excluded` sequences (never zero, never more than one).  The
worker results arrive in an arbitrary order, one per input directory. -/
theorem buildDirs_each_dir_in_exactly_one_bucket
    (dirs : List String) (results : List WorkerResult) (d : String)
    (hperm : List.Perm (results.map (fun r => r.dir)) dirs)
    (hnodup : dirs.Nodup)
    (hnofatal : ∀ r ∈ results, r.err = none)
    (hd : d ∈ dirs) :
    countBuckets (buildDirs results).1 d = 1 := by
  have h1 : countBuckets (buildDirs results).1 d
      = (results.map (fun r => r.dir)).count d := by
    have := collect_count d results (BuildStatus.mk [] [] [] []) hnofatal
    simpa [buildDirs, countBuckets] using this
  rw [h1, hperm.count_eq]
  exact List.count_eq_one_of_mem hnodup hd

/-- Witness for C2: a three-component run exercising all three buckets. -/
theorem buildDirs_each_dir_in_exactly_one_bucket_witness :
    countBuckets (buildDirs
      [WorkerResult.mk "b" (BuildRes.mk false false) false none,
       WorkerResult.mk "a" (BuildRes.mk true false) true none,
       WorkerResult.mk "c" (BuildRes.mk false true) false none]).1 "a" = 1 :=
  buildDirs_each_dir_in_exactly_one_bucket ["a", "b", "c"]
    [WorkerResult.mk "b" (BuildRes.mk false false) false none,
     WorkerResult.mk "a" (BuildRes.mk true false) true none,
     WorkerResult.mk "c" (BuildRes.mk false true) false none]
    "a" (by decide) (by decide) (by decide) (by decide)

/-- C9: the worker attempts annotation edits exactly when the outcome is
Success or Failure, and the `builds` flag it hands the rewriter is the
negation of the spec's DesiredState: desired = true iff Failure,
desired = false iff Success, and no rewriter call happens for Excluded
or Fatal outcomes. -/
theorem worker_fixup_iff_success_or_failure
    (dir : String) (br : BuildRes) (berr : Option String)
    (fixupRes : Bool × Option String) :
    ((workerStep dir br berr fixupRes).1.isSome
        = ((outcomeOf br berr == BuildOutcome.success)
            || (outcomeOf br berr == BuildOutcome.failure)))
    ∧ ((workerStep dir br berr fixupRes).1.map (fun b => !b)
        = (match outcomeOf br berr with
           | BuildOutcome.failure => some true
           | BuildOutcome.success => some false
           | BuildOutcome.excluded => none
           | BuildOutcome.fatal => none)) := by
  obtain ⟨be, bx⟩ := br
  cases berr <;> cases be <;> cases bx <;>
    simp [workerStep, outcomeOf]

/-- C10: a collected result carrying a non-nil (Fatal) error leaves the
accumulated `BuildStatus` exactly as it was, classifies the component
into none of the four sequences, and stops collection: the outcome no
longer depends on the remaining results. -/
theorem fatal_result_stops_collection_unchanged
    (r : WorkerResult) (rest : List WorkerResult) (st : BuildStatus)
    (h : r.err.isSome = true) :
    collectResults (r :: rest) st = (st, none) := by
  unfold collectResults
  simp [h]

/-- Witness for C10. -/
theorem fatal_result_stops_collection_unchanged_witness :
    collectResults
      [WorkerResult.mk "x" (BuildRes.mk false false) false (some "boom"),
       WorkerResult.mk "y" (BuildRes.mk false false) false none]
      (BuildStatus.mk ["p"] [] [] [])
      = (BuildStatus.mk ["p"] [] [] [], none) :=
  fatal_result_stops_collection_unchanged
    (WorkerResult.mk "x" (BuildRes.mk false false) false (some "boom"))
    [WorkerResult.mk "y" (BuildRes.mk false false) false none]
    (BuildStatus.mk ["p"] [] [] []) (by decide)

end Tinygoize
